import Mathlib

/-!
Verification development for the `rawstring` repository: byte-string view
types (`RawStr`, `BStr`) and an owned buffer (`BString`) whose core logic is
the Debug / Display rendering of arbitrary byte runs.

Bytes are modelled as `Nat` values (< 256 where a claim needs it), byte runs
as `List Nat`, and rendered text as `List Nat` of Unicode scalar values.

The rendering code consumes the standard library's UTF-8 chunk iterator
(`[u8]::utf8_chunks`, `core/str/lossy.rs`), an external collaborator of the
repository.  It is embedded here as `scan`, a single pass of the standard
UTF-8 validation automaton producing a token trace; the chunk iterator, the
validator (`str::from_utf8`) and the chunk-internal decoding are all derived
from that trace, exactly as they all share the one automaton in the standard
library.
-/

namespace RawString

/-- A byte of the form `0b10xxxxxx`, i.e. a UTF-8 continuation byte
(`byte & 192 == 128` in the source automaton). -/
def contOk (b : Nat) : Bool := b / 64 == 2

/-- The `UTF8_CHAR_WIDTH` table of the standard automaton: expected length
of the UTF-8 sequence starting with byte `b` (0 for invalid lead bytes). -/
def utf8CharWidth (b : Nat) : Nat :=
  if b < 0x80 then 1
  else if b < 0xC2 then 0
  else if b < 0xE0 then 2
  else if b < 0xF0 then 3
  else if b < 0xF5 then 4
  else 0

/-- Second-byte constraint for a three-byte sequence, from the automaton:
`(0xE0, 0xA0..=0xBF) | (0xE1..=0xEC, 0x80..=0xBF) | (0xED, 0x80..=0x9F)
| (0xEE..=0xEF, 0x80..=0xBF)`. -/
def cont3First (b b1 : Nat) : Bool :=
  (b == 0xE0 && 0xA0 ≤ b1 && b1 ≤ 0xBF) ||
  (0xE1 ≤ b && b ≤ 0xEC && 0x80 ≤ b1 && b1 ≤ 0xBF) ||
  (b == 0xED && 0x80 ≤ b1 && b1 ≤ 0x9F) ||
  (0xEE ≤ b && b ≤ 0xEF && 0x80 ≤ b1 && b1 ≤ 0xBF)

/-- Second-byte constraint for a four-byte sequence, from the automaton:
`(0xF0, 0x90..=0xBF) | (0xF1..=0xF3, 0x80..=0xBF) | (0xF4, 0x80..=0x8F)`. -/
def cont4First (b b1 : Nat) : Bool :=
  (b == 0xF0 && 0x90 ≤ b1 && b1 ≤ 0xBF) ||
  (0xF1 ≤ b && b ≤ 0xF3 && 0x80 ≤ b1 && b1 ≤ 0xBF) ||
  (b == 0xF4 && 0x80 ≤ b1 && b1 ≤ 0x8F)

/-- Scalar value of a two-byte sequence: `(b & 0x1F) << 6 | (b1 & 0x3F)`. -/
def dec2 (b b1 : Nat) : Nat := (b % 32) * 64 + b1 % 64

/-- Scalar value of a three-byte sequence. -/
def dec3 (b b1 b2 : Nat) : Nat := (b % 16) * 4096 + (b1 % 64) * 64 + b2 % 64

/-- Scalar value of a four-byte sequence. -/
def dec4 (b b1 b2 b3 : Nat) : Nat :=
  (b % 8) * 262144 + (b1 % 64) * 4096 + (b2 % 64) * 64 + b3 % 64

/-- One token of the UTF-8 scan trace: a decoded scalar together with the
bytes of its encoding, or a maximal-subpart invalid run (`eof` records
whether the failure was caused by the input ending mid-sequence, which is
what `Utf8Error::error_len` reports as `None`). -/
inductive Tok where
  | scalar (c : Nat) (bs : List Nat) : Tok
  | bad (bs : List Nat) (eof : Bool) : Tok
deriving Repr, DecidableEq

/-- The bytes covered by a token. -/
def Tok.bytes : Tok → List Nat
  | .scalar _ bs => bs
  | .bad bs _ => bs

/-- Whether a token is a decoded scalar. -/
def Tok.isScalar : Tok → Bool
  | .scalar _ _ => true
  | .bad _ _ => false

/-- One step of the standard UTF-8 validation automaton (the shared core of
`str::from_utf8` and `[u8]::utf8_chunks`, which the repository's rendering
code consumes): inspect the byte `b` and whatever lookahead the expected
sequence width requires, and return the decoded scalar or the
maximal-subpart invalid run, together with the input remaining after it.
An absent lookahead byte (`safe_get` reading past the end, which returns 0
and fails every continuation test) appears here as the `[]` cases. -/
def step1 (b : Nat) (rest : List Nat) : Tok × List Nat :=
  if b < 0x80 then (.scalar b [b], rest)
  else match utf8CharWidth b with
  | 2 =>
    match rest with
    | [] => (.bad [b] true, [])
    | b1 :: r1 =>
      if contOk b1 then (.scalar (dec2 b b1) [b, b1], r1)
      else (.bad [b] false, b1 :: r1)
  | 3 =>
    match rest with
    | [] => (.bad [b] true, [])
    | b1 :: r1 =>
      if cont3First b b1 then
        match r1 with
        | [] => (.bad [b, b1] true, [])
        | b2 :: r2 =>
          if contOk b2 then (.scalar (dec3 b b1 b2) [b, b1, b2], r2)
          else (.bad [b, b1] false, b2 :: r2)
      else (.bad [b] false, b1 :: r1)
  | 4 =>
    match rest with
    | [] => (.bad [b] true, [])
    | b1 :: r1 =>
      if cont4First b b1 then
        match r1 with
        | [] => (.bad [b, b1] true, [])
        | b2 :: r2 =>
          if contOk b2 then
            match r2 with
            | [] => (.bad [b, b1, b2] true, [])
            | b3 :: r3 =>
              if contOk b3 then (.scalar (dec4 b b1 b2 b3) [b, b1, b2, b3], r3)
              else (.bad [b, b1, b2] false, b3 :: r3)
          else (.bad [b, b1] false, b2 :: r2)
      else (.bad [b] false, b1 :: r1)
  | _ => (.bad [b] false, rest)

/-- The remaining input of a step is never longer than the lookahead list. -/
theorem step1_snd_length (b : Nat) (rest : List Nat) :
    (step1 b rest).2.length ≤ rest.length := by
  unfold step1
  repeat' split
  all_goals try simp
  all_goals omega

/-- The standard UTF-8 validation automaton run over a whole byte run,
producing the trace of decoded scalars and maximal-subpart invalid runs. -/
def scan : List Nat → List Tok
  | [] => []
  | b :: rest => (step1 b rest).1 :: scan (step1 b rest).2
termination_by l => l.length
decreasing_by
  simp only [List.length_cons]
  exact Nat.lt_succ_of_le (step1_snd_length _ _)

/-- Unfolding equation for `scan` on a non-empty byte run. -/
theorem scan_cons (b : Nat) (rest : List Nat) :
    scan (b :: rest) = (step1 b rest).1 :: scan (step1 b rest).2 := by
  rw [scan]

/-- The scan of the empty byte run is empty. -/
@[simp]
theorem scan_nil : scan [] = [] := by rw [scan]

/-- A byte run is valid UTF-8 exactly when its scan trace contains no
invalid run (the acceptance condition of `str::from_utf8`). -/
def validUtf8 (l : List Nat) : Bool := (scan l).all Tok.isScalar

/-- The scalars decoded from a byte run (meaningful on valid UTF-8 input,
where it is the UTF-8 decoding; `str::chars` of the decoded text). -/
def utf8Decode (l : List Nat) : List Nat :=
  (scan l).filterMap fun t =>
    match t with
    | .scalar c _ => some c
    | .bad _ _ => none

/-- UTF-8 encoding of one Unicode scalar (`char::encode_utf8`). -/
def utf8EncodeChar (c : Nat) : List Nat :=
  if c < 0x80 then [c]
  else if c < 0x800 then [0xC0 + c / 64, 0x80 + c % 64]
  else if c < 0x10000 then
    [0xE0 + c / 4096, 0x80 + c / 64 % 64, 0x80 + c % 64]
  else
    [0xF0 + c / 262144, 0x80 + c / 4096 % 64, 0x80 + c / 64 % 64, 0x80 + c % 64]

/-- UTF-8 encoding of a scalar sequence. -/
def utf8Encode (cs : List Nat) : List Nat := cs.flatMap utf8EncodeChar

/-- Grouping of a scan trace into the chunks yielded by the
`[u8]::utf8_chunks` iterator: the bytes of consecutive scalar tokens form a
chunk's valid part, a following invalid run is its invalid part; a trailing
all-valid chunk has an empty invalid part, and an empty input yields no
chunk at all. -/
def chunksFrom : List Nat → List Tok → List (List Nat × List Nat)
  | vacc, [] => if vacc.isEmpty then [] else [(vacc, [])]
  | vacc, .scalar _ bs :: t => chunksFrom (vacc ++ bs) t
  | vacc, .bad bs _ :: t => (vacc, bs) :: chunksFrom [] t

/-- The chunk partition of a byte run: the sequence of
(valid UTF-8 prefix, invalid suffix) pairs produced by `utf8_chunks()`. -/
def utf8Chunks (l : List Nat) : List (List Nat × List Nat) := chunksFrom [] (scan l)

/-- A UTF-8 decode failure, as reported by `str::from_utf8`
(`Utf8Error { valid_up_to, error_len }`). -/
structure Utf8Error where
  validUpTo : Nat
  errorLen : Option Nat
deriving Repr, DecidableEq

/-- Reading the scan trace as `str::from_utf8` does: all-scalar traces
decode, the first invalid run aborts with its position (`p` counts the
bytes of the scalars already accepted) and, unless the input ended
mid-sequence, the length of the rejected maximal subpart. -/
def fromUtf8Go : List Tok → Nat → Except Utf8Error (List Nat)
  | [], _ => .ok []
  | .scalar c bs :: t, p =>
    match fromUtf8Go t (p + bs.length) with
    | .ok cs => .ok (c :: cs)
    | .error e => .error e
  | .bad bs eof :: _, p => .error ⟨p, if eof then none else some bs.length⟩

/-- `str::from_utf8` over a byte run: the decoded scalars, or the error
locating the first invalid sequence. -/
def fromUtf8 (l : List Nat) : Except Utf8Error (List Nat) := fromUtf8Go (scan l) 0

/-- `RawStr::to_utf8` (and `TryFrom<&RawStr> for &str`): convert the view
to text exactly when its bytes are valid UTF-8. -/
def toUtf8 (l : List Nat) : Except Utf8Error (List Nat) := fromUtf8 l

/-- The error of `String::from_utf8` (`FromUtf8Error`): the rejected bytes
together with the underlying UTF-8 error. -/
structure FromUtf8Error where
  bytes : List Nat
  utf8Error : Utf8Error
deriving Repr, DecidableEq

/-- `String::from_utf8`, which `TryFrom<BString> for String` applies to the
owned buffer: the decoded text, or a `FromUtf8Error` wrapping the bytes and
the `Utf8Error`. -/
def stringFromUtf8 (l : List Nat) : Except FromUtf8Error (List Nat) :=
  match fromUtf8 l with
  | .ok cs => .ok cs
  | .error e => .error ⟨l, e⟩

/-- Lower-case hexadecimal digit character for a value below 16. -/
def hexDigit (n : Nat) : Nat := if n < 10 then 0x30 + n else 0x61 + (n - 10)

/-- `u8::escape_ascii` (`core::ascii::escape_default`): `\t`, `\r`, `\n`,
`\\`, `\'`, `\"` for those bytes, printable ASCII verbatim, and two-digit
lower-case `\xNN` otherwise. -/
def escapeAsciiByte (b : Nat) : List Nat :=
  if b == 0x09 then [0x5C, 0x74]
  else if b == 0x0D then [0x5C, 0x72]
  else if b == 0x0A then [0x5C, 0x6E]
  else if b == 0x5C then [0x5C, 0x5C]
  else if b == 0x27 then [0x5C, 0x27]
  else if b == 0x22 then [0x5C, 0x22]
  else if 0x20 ≤ b && b ≤ 0x7E then [b]
  else [0x5C, 0x78, hexDigit (b / 16), hexDigit (b % 16)]

/-- Minimal-length lower-case hexadecimal digit string of `n`. -/
def toHex (n : Nat) : List Nat :=
  if h : n < 16 then [hexDigit n]
  else
    have : 16 ≤ n := Nat.le_of_not_lt h
    toHex (n / 16) ++ [hexDigit (n % 16)]
decreasing_by
  exact Nat.div_lt_self (by omega) (by norm_num)

/-- Modelled from the spec: the external debug-escape policy for a single
Unicode scalar (`char::escape_debug`), which the repository consumes for
scalars above U+007F only — "printable non-ASCII scalars emit verbatim;
otherwise `\u{HEX}` with the minimum digits".  Which scalars count as
printable (and not grapheme-extended) is external Unicode data, taken here
as the predicate `printable`; every theorem about Debug holds for every
choice of it. -/
def escDebug (printable : Nat → Bool) (c : Nat) : List Nat :=
  if printable c then [c]
  else [0x5C, 0x75, 0x7B] ++ toHex c ++ [0x7D]

/-- The per-scalar Debug rendering of the valid part of a chunk
(`impl fmt::Debug for RawStr`, inner match): `\0` for U+0000, the
ASCII-escape for U+0001..=U+007F, the debug-escape otherwise. -/
def debugScalar (printable : Nat → Bool) (c : Nat) : List Nat :=
  if c == 0 then [0x5C, 0x30]
  else if 0x01 ≤ c && c ≤ 0x7F then escapeAsciiByte c
  else escDebug printable c

/-- The Debug rendering of one chunk: each decoded scalar of the valid part
through `debugScalar`, then each byte of the invalid part through
`escape_ascii`. -/
def debugChunk (printable : Nat → Bool) (vi : List Nat × List Nat) : List Nat :=
  (utf8Decode vi.1).flatMap (debugScalar printable) ++ vi.2.flatMap escapeAsciiByte

/-- `impl fmt::Debug for RawStr`: a literal `"`, the chunk renderings in
order, a closing literal `"`. -/
def rawStrDebugOut (printable : Nat → Bool) (l : List Nat) : List Nat :=
  0x22 :: (utf8Chunks l).flatMap (debugChunk printable) ++ [0x22]

/-- `impl fmt::Debug for BStr` (`bstr.rs`, textually the same rendering
loop as the `RawStr` one). -/
def bStrDebugOut (printable : Nat → Bool) (l : List Nat) : List Nat :=
  0x22 :: (utf8Chunks l).flatMap (debugChunk printable) ++ [0x22]

/-- The Unicode replacement character U+FFFD, the crate's exported
`UTF8_REPLACEMENT_CHARACTER` constant. -/
def replacementChar : Nat := 0xFFFD

/-- The unpadded Display rendering (`fmt_no_pad`): each chunk's valid part
verbatim (its decoded scalars, since output is scalar text), then one
replacement character exactly when the invalid part is non-empty. -/
def displayNoPad (l : List Nat) : List Nat :=
  (utf8Chunks l).flatMap fun vi =>
    utf8Decode vi.1 ++ if vi.2.isEmpty then [] else [replacementChar]

/-- The visible length computed by the padded Display path: per chunk, the
scalar count of the valid part plus 1 for a non-empty invalid part. -/
def visibleLen (l : List Nat) : Nat :=
  ((utf8Chunks l).map fun vi =>
    (utf8Decode vi.1).length + if vi.2.isEmpty then 0 else 1).sum

/-- Alignment requested through the formatter (`fmt::Alignment`). -/
inductive Alignment where
  | left | right | center
deriving Repr, DecidableEq

/-- The formatting request consumed by Display: `f.align()`, `f.width()`
and `f.fill()` (the fill scalar, space by default). -/
structure FmtParams where
  align : Option Alignment
  width : Option Nat
  fill : Nat
deriving Repr, DecidableEq

/-- The padding split of `impl fmt::Display for RawStr`: no padding
without alignment; otherwise `width.unwrap_or(0)` minus the visible length
(saturating), split per alignment with the odd centre unit on the right. -/
def padCounts (prm : FmtParams) (l : List Nat) : Nat × Nat :=
  match prm.align with
  | none => (0, 0)
  | some a =>
    let total := prm.width.getD 0 - visibleLen l
    match a with
    | .left => (0, total)
    | .right => (total, 0)
    | .center => (total / 2, total / 2 + total % 2)

/-- The full Display output of `RawStr` for a formatting request: left
fill, unpadded form, right fill (all three collapse to the unpadded form
when no alignment is requested). -/
def rawStrDisplayRendered (prm : FmtParams) (l : List Nat) : List Nat :=
  List.replicate (padCounts prm l).1 prm.fill ++ displayNoPad l ++
    List.replicate (padCounts prm l).2 prm.fill

/-- A writer (`fmt::Write` target) as a state machine: `wf s c` is the
state after successfully writing scalar `c` in state `s`, or `none` when
the writer reports a failure for that write. -/
def WriteFn (σ : Type) : Type := σ → Nat → Option σ

/-- `write_str`/successive `write_char` with `?`-propagation: write every
scalar of `out`, aborting at the first writer failure. -/
def writeStr {σ : Type} (wf : WriteFn σ) (s : σ) : List Nat → Option σ
  | [] => some s
  | c :: cs =>
    match wf s c with
    | none => none
    | some s1 => writeStr wf s1 cs

/-- The loop `for _ in 0..n { f.write_char(fill)?; }` of the `RawStr`
Display implementation: every failure propagates. -/
def writeFillRaw {σ : Type} (wf : WriteFn σ) (fill : Nat) : Nat → σ → Option σ
  | 0, s => some s
  | n + 1, s =>
    match wf s fill with
    | none => none
    | some s1 => writeFillRaw wf fill n s1

/-- The loop `for _ in 0..n { f.write_char(fill); }` of the `BStr` Display
implementation: the `Result` of each write is discarded, so a failing
write leaves the writer state unchanged and the loop continues. -/
def writeFillB {σ : Type} (wf : WriteFn σ) (fill : Nat) : Nat → σ → σ
  | 0, s => s
  | n + 1, s =>
    match wf s fill with
    | none => writeFillB wf fill n s
    | some s1 => writeFillB wf fill n s1

/-- `fmt_no_pad` of `impl fmt::Display for RawStr` over the chunk list:
`f.write_str(chunk.valid())?`, then
`f.write_char(UTF8_REPLACEMENT_CHARACTER)?` when the invalid part is
non-empty. -/
def rawFmtNoPadGo {σ : Type} (wf : WriteFn σ) :
    List (List Nat × List Nat) → σ → Option σ
  | [], s => some s
  | vi :: t, s =>
    match writeStr wf s (utf8Decode vi.1) with
    | none => none
    | some s1 =>
      if vi.2.isEmpty then rawFmtNoPadGo wf t s1
      else
        match wf s1 replacementChar with
        | none => none
        | some s2 => rawFmtNoPadGo wf t s2

/-- `fmt_no_pad` of `impl fmt::Display for RawStr` over a byte run. -/
def rawFmtNoPad {σ : Type} (wf : WriteFn σ) (l : List Nat) (s : σ) : Option σ :=
  rawFmtNoPadGo wf (utf8Chunks l) s

/-- `impl fmt::Display for RawStr`: with an alignment, write the left
padding (each fill write propagating failure), the unpadded form, the
right padding; otherwise the unpadded form directly. -/
def rawStrDisplayFmtW {σ : Type} (wf : WriteFn σ) (prm : FmtParams)
    (l : List Nat) (s : σ) : Option σ :=
  match prm.align with
  | none => rawFmtNoPad wf l s
  | some _ =>
    match writeFillRaw wf prm.fill (padCounts prm l).1 s with
    | none => none
    | some s1 =>
      match rawFmtNoPad wf l s1 with
      | none => none
      | some s2 => writeFillRaw wf prm.fill (padCounts prm l).2 s2

/-- `fmt_no_pad` of `impl fmt::Display for BStr` (`bstr.rs`):
`f.write_str(chunk.valid())?` propagates, but the replacement-character
write's `Result` is discarded (`f.write_char(UTF8_REPLACEMENT_CHARACTER);`
without `?`), so its failure is swallowed and rendering continues. -/
def bFmtNoPadGo {σ : Type} (wf : WriteFn σ) :
    List (List Nat × List Nat) → σ → Option σ
  | [], s => some s
  | vi :: t, s =>
    match writeStr wf s (utf8Decode vi.1) with
    | none => none
    | some s1 =>
      if vi.2.isEmpty then bFmtNoPadGo wf t s1
      else
        match wf s1 replacementChar with
        | none => bFmtNoPadGo wf t s1
        | some s2 => bFmtNoPadGo wf t s2

/-- `fmt_no_pad` of `impl fmt::Display for BStr` over a byte run. -/
def bFmtNoPad {σ : Type} (wf : WriteFn σ) (l : List Nat) (s : σ) : Option σ :=
  bFmtNoPadGo wf (utf8Chunks l) s

/-- `impl fmt::Display for BStr`: as for `RawStr`, except that the fill
writes also discard their `Result` (`f.write_char(fill);` without `?`). -/
def bStrDisplayFmtW {σ : Type} (wf : WriteFn σ) (prm : FmtParams)
    (l : List Nat) (s : σ) : Option σ :=
  match prm.align with
  | none => bFmtNoPad wf l s
  | some _ =>
    match bFmtNoPad wf l (writeFillB wf prm.fill (padCounts prm l).1 s) with
    | none => none
    | some s2 => some (writeFillB wf prm.fill (padCounts prm l).2 s2)

/-- The borrowed view of `raw_str_imp.rs`: a transparent wrapper around a
run of bytes. -/
structure RawStr where
  bytes : List Nat
deriving Repr, DecidableEq

/-- The borrowed view of `bstr.rs`. -/
structure BStr where
  bytes : List Nat
deriving Repr, DecidableEq

/-- The owned growable buffer of `bstring.rs`, a transparent wrapper
around the byte vector. -/
structure BString where
  bytes : List Nat
deriving Repr, DecidableEq

/-- `BString::as_bstr`: project the owned buffer as a borrowed `BStr` over
the same bytes. -/
def BString.asBstr (s : BString) : BStr := ⟨s.bytes⟩

/-- `impl fmt::Debug for BString`: `self.as_bstr().fmt(f)`. -/
def bStringDebugOut (printable : Nat → Bool) (s : BString) : List Nat :=
  bStrDebugOut printable s.asBstr.bytes

/-- `impl fmt::Display for BString`: `self.as_bstr().fmt(f)`. -/
def bStringDisplayFmtW {σ : Type} (wf : WriteFn σ) (prm : FmtParams)
    (s : BString) (st : σ) : Option σ :=
  bStrDisplayFmtW wf prm s.asBstr.bytes st

/-- `impl TryFrom<BString> for String`: `String::from_utf8(this.0)`. -/
def BString.tryIntoString (s : BString) : Except FromUtf8Error (List Nat) :=
  stringFromUtf8 s.bytes

/-- `RawStr::to_utf8` on the view. -/
def RawStr.toUtf8 (r : RawStr) : Except Utf8Error (List Nat) :=
  fromUtf8 r.bytes

/-- Byte-lexicographic three-way comparison, the `Ord` instance of `[u8]`
to which `RawStr`'s manual `PartialOrd`/`Ord` implementations delegate. -/
def bytesCmp : List Nat → List Nat → Ordering
  | [], [] => .eq
  | [], _ :: _ => .lt
  | _ :: _, [] => .gt
  | a :: as, b :: bs =>
    if a < b then .lt else if b < a then .gt else bytesCmp as bs

/-- `impl PartialEq<T> for RawStr`: `&self.0 == other.as_ref()`, i.e. byte
equality against the operand's byte view. -/
def rawStrEq (r : RawStr) (other : List Nat) : Bool := r.bytes == other

/-- `impl PartialOrd<T> for RawStr`: `Some(self.0.cmp(other.as_ref()))`. -/
def rawStrCmpOpt (r : RawStr) (other : List Nat) : Option Ordering :=
  some (bytesCmp r.bytes other)

/-- `impl Ord for RawStr`: `self.0.cmp(&other.0)`. -/
def rawStrCmp (r other : RawStr) : Ordering := bytesCmp r.bytes other.bytes

/-- Value of one hexadecimal digit character, if it is one. -/
def hexVal (c : Nat) : Option Nat :=
  if 0x30 ≤ c ∧ c ≤ 0x39 then some (c - 0x30)
  else if 0x61 ≤ c ∧ c ≤ 0x66 then some (c - 0x61 + 10)
  else if 0x41 ≤ c ∧ c ≤ 0x46 then some (c - 0x41 + 10)
  else none

/-- Read hexadecimal digits until a closing `}` (the inside of a
`\u{HEX}` escape), returning the accumulated value and the rest. -/
def parseHexUntil : List Nat → Nat → Option (Nat × List Nat)
  | [], _ => none
  | c :: r, acc =>
    if c == 0x7D then some (acc, r)
    else
      match hexVal c with
      | some d => parseHexUntil r (acc * 16 + d)
      | none => none

/-- A successful `parseHexUntil` consumes at least the closing brace. -/
theorem parseHexUntil_length {l : List Nat} {acc v : Nat} {r : List Nat}
    (h : parseHexUntil l acc = some (v, r)) : r.length < l.length := by
  induction l generalizing acc with
  | nil => simp [parseHexUntil] at h
  | cons c t ih =>
    unfold parseHexUntil at h
    by_cases hc : c = 0x7D
    · simp [hc] at h
      rcases h with ⟨h1, h2⟩
      subst h2
      simp
    · simp [hc] at h
      match hv : hexVal c with
      | none => rw [hv] at h; exact absurd h (by simp)
      | some d =>
        rw [hv] at h
        exact Nat.lt_trans (ih h) (by simp)

/-- One escape item of the documented Debug escape grammar, read from the
input just after a backslash: the bytes the escape denotes and the
remaining input (`\0`, `\t`, `\r`, `\n`, `\\`, `\'`, `\"`, `\xNN`,
`\u{HEX}`). -/
def escStep : List Nat → Option (List Nat × List Nat)
  | [] => none
  | e :: r =>
    if e == 0x30 then some ([0x00], r)
    else if e == 0x74 then some ([0x09], r)
    else if e == 0x72 then some ([0x0D], r)
    else if e == 0x6E then some ([0x0A], r)
    else if e == 0x5C then some ([0x5C], r)
    else if e == 0x27 then some ([0x27], r)
    else if e == 0x22 then some ([0x22], r)
    else if e == 0x78 then
      match r with
      | h1 :: h2 :: r2 =>
        match hexVal h1, hexVal h2 with
        | some d1, some d2 => some ([d1 * 16 + d2], r2)
        | _, _ => none
      | _ => none
    else if e == 0x75 then
      match r with
      | 0x7B :: r1 =>
        match parseHexUntil r1 0 with
        | some (v, r2) => some (utf8EncodeChar v, r2)
        | none => none
      | _ => none
    else none

/-- A parsed escape item consumes at least one input character. -/
theorem escStep_length {t : List Nat} {bs r : List Nat}
    (h : escStep t = some (bs, r)) : r.length < t.length := by
  match t with
  | [] => simp [escStep] at h
  | e :: r1 =>
    unfold escStep at h
    repeat' split at h
    all_goals try simp_all
    all_goals try omega
    all_goals rename_i heq
    all_goals have := parseHexUntil_length heq
    all_goals omega

/-- Reparser for the documented Debug escape grammar over the quoted body:
escape items introduced by a backslash, and verbatim scalars (re-encoded
as UTF-8), producing the byte run the body denotes. -/
def unescape : List Nat → Option (List Nat)
  | [] => some []
  | 0x5C :: t =>
    match hs : escStep t with
    | some (bs, r) =>
      match unescape r with
      | some tail => some (bs ++ tail)
      | none => none
    | none => none
  | c :: t =>
    match unescape t with
    | some bs => some (utf8EncodeChar c ++ bs)
    | none => none
termination_by l => l.length
decreasing_by
  · have := escStep_length hs
    simp
    omega
  · simp

/-- Range characterisation of `utf8CharWidth b = 2`. -/
theorem width_two_iff (b : Nat) : utf8CharWidth b = 2 ↔ 0xC2 ≤ b ∧ b < 0xE0 := by
  unfold utf8CharWidth
  split_ifs <;> (try simp) <;> omega

/-- Range characterisation of `utf8CharWidth b = 3`. -/
theorem width_three_iff (b : Nat) : utf8CharWidth b = 3 ↔ 0xE0 ≤ b ∧ b < 0xF0 := by
  unfold utf8CharWidth
  split_ifs <;> (try simp) <;> omega

/-- Range characterisation of `utf8CharWidth b = 4`. -/
theorem width_four_iff (b : Nat) : utf8CharWidth b = 4 ↔ 0xF0 ≤ b ∧ b < 0xF5 := by
  unfold utf8CharWidth
  split_ifs <;> (try simp) <;> omega

/-- Range characterisation of a continuation byte. -/
theorem contOk_iff (b : Nat) : contOk b = true ↔ 0x80 ≤ b ∧ b < 0xC0 := by
  simp only [contOk, beq_iff_eq]
  omega

/-- Inversion of a scalar step: the four ways the automaton accepts a
sequence, with the byte-range conditions of each arm. -/
theorem step1_scalar_spec {b : Nat} {rest : List Nat} {c : Nat}
    {bs r : List Nat} (h : step1 b rest = (.scalar c bs, r)) :
    (bs = [b] ∧ rest = r ∧ c = b ∧ b < 0x80) ∨
    (∃ b1, bs = [b, b1] ∧ rest = b1 :: r ∧ c = dec2 b b1 ∧
      utf8CharWidth b = 2 ∧ contOk b1 = true) ∨
    (∃ b1 b2, bs = [b, b1, b2] ∧ rest = b1 :: b2 :: r ∧ c = dec3 b b1 b2 ∧
      utf8CharWidth b = 3 ∧ cont3First b b1 = true ∧ contOk b2 = true) ∨
    (∃ b1 b2 b3, bs = [b, b1, b2, b3] ∧ rest = b1 :: b2 :: b3 :: r ∧
      c = dec4 b b1 b2 b3 ∧ utf8CharWidth b = 4 ∧ cont4First b b1 = true ∧
      contOk b2 = true ∧ contOk b3 = true) := by
  unfold step1 at h
  split at h
  next hlt =>
    simp only [Prod.mk.injEq, Tok.scalar.injEq] at h
    exact Or.inl ⟨h.1.2.symm, h.2, h.1.1.symm, hlt⟩
  next hlt =>
    split at h
    next hw =>
      split at h
      next => simp at h
      next b1 r1 =>
        split at h
        next hco =>
          simp only [Prod.mk.injEq, Tok.scalar.injEq] at h
          exact Or.inr (Or.inl ⟨b1, h.1.2.symm, by rw [h.2], h.1.1.symm, hw, hco⟩)
        next => simp at h
    next hw =>
      split at h
      next => simp at h
      next b1 r1 =>
        split at h
        next h31 =>
          split at h
          next => simp at h
          next b2 r2 =>
            split at h
            next hco =>
              simp only [Prod.mk.injEq, Tok.scalar.injEq] at h
              exact Or.inr (Or.inr (Or.inl
                ⟨b1, b2, h.1.2.symm, by rw [h.2], h.1.1.symm, hw, h31, hco⟩))
            next => simp at h
        next => simp at h
    next hw =>
      split at h
      next => simp at h
      next b1 r1 =>
        split at h
        next h41 =>
          split at h
          next => simp at h
          next b2 r2 =>
            split at h
            next hco2 =>
              split at h
              next => simp at h
              next b3 r3 =>
                split at h
                next hco3 =>
                  simp only [Prod.mk.injEq, Tok.scalar.injEq] at h
                  exact Or.inr (Or.inr (Or.inr
                    ⟨b1, b2, b3, h.1.2.symm, by rw [h.2], h.1.1.symm, hw,
                      h41, hco2, hco3⟩))
                next => simp at h
            next => simp at h
        next => simp at h
    next => simp at h

/-- Inversion of a failing step: the rejected maximal subpart starts with
the lead byte (which is at least `0x80`), its further bytes are accepted
continuation bytes in `0x80..=0xBF`, and the input continues with the
untouched remainder. -/
theorem step1_bad_spec {b : Nat} {rest : List Nat} {bs : List Nat}
    {e : Bool} {r : List Nat} (h : step1 b rest = (.bad bs e, r)) :
    (∃ tl, bs = b :: tl ∧ rest = tl ++ r ∧
      ∀ x ∈ tl, 0x80 ≤ x ∧ x ≤ 0xBF) ∧ 0x80 ≤ b := by
  unfold step1 at h
  split at h
  next => simp at h
  next hlt =>
    have hb : 0x80 ≤ b := by omega
    refine ⟨?_, hb⟩
    split at h
    next hw =>
      split at h
      next =>
        simp only [Prod.mk.injEq, Tok.bad.injEq] at h
        exact ⟨[], by simp [h.1.1.symm], by simpa using h.2, by simp⟩
      next b1 r1 =>
        split at h
        next => simp at h
        next =>
          simp only [Prod.mk.injEq, Tok.bad.injEq] at h
          exact ⟨[], by simp [h.1.1.symm], by simp [h.2], by simp⟩
    next hw =>
      split at h
      next =>
        simp only [Prod.mk.injEq, Tok.bad.injEq] at h
        exact ⟨[], by simp [h.1.1.symm], by simpa using h.2, by simp⟩
      next b1 r1 =>
        split at h
        next h31 =>
          have hb1 : 0x80 ≤ b1 ∧ b1 ≤ 0xBF := by
            simp [cont3First] at h31
            omega
          split at h
          next =>
            simp only [Prod.mk.injEq, Tok.bad.injEq] at h
            exact ⟨[b1], by simp [h.1.1.symm], by simpa using h.2,
              by simpa using hb1⟩
          next b2 r2 =>
            split at h
            next => simp at h
            next =>
              simp only [Prod.mk.injEq, Tok.bad.injEq] at h
              exact ⟨[b1], by simp [h.1.1.symm], by simp [h.2],
                by simpa using hb1⟩
        next =>
          simp only [Prod.mk.injEq, Tok.bad.injEq] at h
          exact ⟨[], by simp [h.1.1.symm], by simp [h.2], by simp⟩
    next hw =>
      split at h
      next =>
        simp only [Prod.mk.injEq, Tok.bad.injEq] at h
        exact ⟨[], by simp [h.1.1.symm], by simpa using h.2, by simp⟩
      next b1 r1 =>
        split at h
        next h41 =>
          have hb1 : 0x80 ≤ b1 ∧ b1 ≤ 0xBF := by
            simp [cont4First] at h41
            omega
          split at h
          next =>
            simp only [Prod.mk.injEq, Tok.bad.injEq] at h
            exact ⟨[b1], by simp [h.1.1.symm], by simpa using h.2,
              by simpa using hb1⟩
          next b2 r2 =>
            split at h
            next hco2 =>
              have hb2 : 0x80 ≤ b2 ∧ b2 ≤ 0xBF := by
                rw [contOk_iff] at hco2
                omega
              split at h
              next =>
                simp only [Prod.mk.injEq, Tok.bad.injEq] at h
                refine ⟨[b1, b2], by simp [h.1.1.symm], by simpa using h.2, ?_⟩
                intro x hx
                simp at hx
                rcases hx with hx | hx <;> omega
              next b3 r3 =>
                split at h
                next => simp at h
                next =>
                  simp only [Prod.mk.injEq, Tok.bad.injEq] at h
                  refine ⟨[b1, b2], by simp [h.1.1.symm], by simp [h.2], ?_⟩
                  intro x hx
                  simp at hx
                  rcases hx with hx | hx <;> omega
            next =>
              simp only [Prod.mk.injEq, Tok.bad.injEq] at h
              exact ⟨[b1], by simp [h.1.1.symm], by simp [h.2],
                by simpa using hb1⟩
        next =>
          simp only [Prod.mk.injEq, Tok.bad.injEq] at h
          exact ⟨[], by simp [h.1.1.symm], by simp [h.2], by simp⟩
    next =>
      simp only [Prod.mk.injEq, Tok.bad.injEq] at h
      exact ⟨[], by simp [h.1.1.symm], by simp [h.2], by simp⟩

/-- A scalar step reads exactly the bytes of its sequence: with the same
continuation bytes in front, any remainder whatsoever produces the same
scalar token. -/
theorem step1_scalar_local {b : Nat} {rest : List Nat} {c : Nat}
    {bs r : List Nat} (h : step1 b rest = (.scalar c bs, r)) :
    ∃ tl, bs = b :: tl ∧ rest = tl ++ r ∧
      ∀ y, step1 b (tl ++ y) = (.scalar c bs, y) := by
  rcases step1_scalar_spec h with h1 | h1 | h1 | h1
  · obtain ⟨hbs, hr, hc, hlt⟩ := h1
    exact ⟨[], by simp [hbs], by simp [hr], fun y => by simp [step1, hlt, hbs, hc]⟩
  · obtain ⟨b1, hbs, hr, hc, hw, hco⟩ := h1
    refine ⟨[b1], by simp [hbs], by simp [hr], fun y => ?_⟩
    have hnlt : ¬b < 0x80 := by
      rw [width_two_iff] at hw
      omega
    simp [step1, hnlt, hw, hco, hbs, hc]
  · obtain ⟨b1, b2, hbs, hr, hc, hw, h31, hco⟩ := h1
    refine ⟨[b1, b2], by simp [hbs], by simp [hr], fun y => ?_⟩
    have hnlt : ¬b < 0x80 := by
      rw [width_three_iff] at hw
      omega
    simp [step1, hnlt, hw, h31, hco, hbs, hc]
  · obtain ⟨b1, b2, b3, hbs, hr, hc, hw, h41, hco2, hco3⟩ := h1
    refine ⟨[b1, b2, b3], by simp [hbs], by simp [hr], fun y => ?_⟩
    have hnlt : ¬b < 0x80 := by
      rw [width_four_iff] at hw
      omega
    simp [step1, hnlt, hw, h41, hco2, hco3, hbs, hc]

/-- The scalar of an accepted sequence re-encodes to exactly the bytes the
automaton consumed (UTF-8 encoding is canonical on the accepted ranges). -/
theorem step1_scalar_encode {b : Nat} {rest : List Nat} {c : Nat}
    {bs r : List Nat} (h : step1 b rest = (.scalar c bs, r)) :
    utf8EncodeChar c = bs := by
  rcases step1_scalar_spec h with h1 | h1 | h1 | h1
  · obtain ⟨hbs, -, hc, hlt⟩ := h1
    simp [utf8EncodeChar, hc, hlt, hbs]
  · obtain ⟨b1, hbs, -, hc, hw, hco⟩ := h1
    rw [width_two_iff] at hw
    rw [contOk_iff] at hco
    subst hc
    unfold dec2
    have h1 : ¬(b % 32 * 64 + b1 % 64 < 0x80) := by omega
    have h2 : b % 32 * 64 + b1 % 64 < 0x800 := by omega
    simp only [utf8EncodeChar, h1, h2, if_true, if_false, ite_true, ite_false,
      hbs, List.cons.injEq, and_true]
    omega
  · obtain ⟨b1, b2, hbs, -, hc, hw, h31, hco⟩ := h1
    rw [width_three_iff] at hw
    rw [contOk_iff] at hco
    simp only [cont3First, Bool.or_eq_true, Bool.and_eq_true, beq_iff_eq,
      decide_eq_true_eq] at h31
    subst hc
    unfold dec3
    have h1 : ¬(b % 16 * 4096 + b1 % 64 * 64 + b2 % 64 < 0x80) := by omega
    have h2 : ¬(b % 16 * 4096 + b1 % 64 * 64 + b2 % 64 < 0x800) := by omega
    have h3 : b % 16 * 4096 + b1 % 64 * 64 + b2 % 64 < 0x10000 := by omega
    simp only [utf8EncodeChar, h1, h2, h3, if_true, if_false, ite_true,
      ite_false, hbs, List.cons.injEq, and_true]
    omega
  · obtain ⟨b1, b2, b3, hbs, -, hc, hw, h41, hco2, hco3⟩ := h1
    rw [width_four_iff] at hw
    rw [contOk_iff] at hco2
    rw [contOk_iff] at hco3
    simp only [cont4First, Bool.or_eq_true, Bool.and_eq_true, beq_iff_eq,
      decide_eq_true_eq] at h41
    subst hc
    unfold dec4
    have h1 : ¬(b % 8 * 262144 + b1 % 64 * 4096 + b2 % 64 * 64 + b3 % 64 < 0x80) := by
      omega
    have h2 : ¬(b % 8 * 262144 + b1 % 64 * 4096 + b2 % 64 * 64 + b3 % 64 < 0x800) := by
      omega
    have h3 : ¬(b % 8 * 262144 + b1 % 64 * 4096 + b2 % 64 * 64 + b3 % 64 < 0x10000) := by
      omega
    simp only [utf8EncodeChar, h1, h2, h3, if_true, if_false, ite_true,
      ite_false, hbs, List.cons.injEq, and_true]
    omega

/-- Every step covers its bytes: token bytes followed by the remainder
reconstitute the input. -/
theorem step1_bytes (b : Nat) (rest : List Nat) :
    (step1 b rest).1.bytes ++ (step1 b rest).2 = b :: rest := by
  rcases hs : step1 b rest with ⟨tok, r⟩
  cases tok with
  | scalar c bs =>
    obtain ⟨tl, hbs, hr, -⟩ := step1_scalar_local hs
    simp [Tok.bytes, hbs, hr]
  | bad bs e =>
    obtain ⟨⟨tl, hbs, hr, -⟩, -⟩ := step1_bad_spec hs
    simp [Tok.bytes, hbs, hr]

/-- The scan trace covers the input: concatenating all token bytes gives
back the byte run. -/
theorem scan_bytes (l : List Nat) : (scan l).flatMap Tok.bytes = l := by
  induction l using scan.induct with
  | case1 => simp
  | case2 b rest ih =>
    rw [scan_cons, List.flatMap_cons, ih, step1_bytes]

/-- A scalar token of any scan trace scans on its own to exactly itself,
and its scalar re-encodes to its bytes. -/
theorem scan_goodTok {l : List Nat} {c : Nat} {bs : List Nat}
    (h : Tok.scalar c bs ∈ scan l) :
    scan bs = [Tok.scalar c bs] ∧ utf8EncodeChar c = bs := by
  induction l using scan.induct with
  | case1 => simp at h
  | case2 b rest ih =>
    rw [scan_cons] at h
    rcases List.mem_cons.mp h with h1 | h1
    · rcases hs : step1 b rest with ⟨tok, r⟩
      rw [hs] at h1
      subst h1
      obtain ⟨tl, hbs, hr, hloc⟩ := step1_scalar_local hs
      constructor
      · rw [hbs, scan_cons]
        have h0 := hloc []
        rw [List.append_nil] at h0
        rw [h0]
        simp [hbs]
      · exact step1_scalar_encode hs
    · exact ih h1

/-- Scanning a valid byte run followed by anything scans the valid part
first: the automaton is local, so a valid prefix contributes its own trace
unchanged. -/
theorem scan_append {x : List Nat} (hx : validUtf8 x = true) (y : List Nat) :
    scan (x ++ y) = scan x ++ scan y := by
  induction x using scan.induct with
  | case1 => simp
  | case2 b rest ih =>
    rcases hs : step1 b rest with ⟨tok, r⟩
    have hxh : validUtf8 (b :: rest) = true := hx
    rw [validUtf8, scan_cons, hs] at hxh
    simp only [List.all_cons, Bool.and_eq_true] at hxh
    cases tok with
    | bad bs e => simp [Tok.isScalar] at hxh
    | scalar c bs =>
      obtain ⟨tl, hbs, hr, hloc⟩ := step1_scalar_local hs
      have hstep2 : scan ((b :: rest) ++ y) = Tok.scalar c bs :: scan (r ++ y) := by
        have : (b :: rest) ++ y = b :: (tl ++ (r ++ y)) := by
          simp [hr]
        rw [this, scan_cons, hloc (r ++ y)]
      rw [hstep2, scan_cons, hs]
      have hvr : validUtf8 r = true := by
        rw [validUtf8]
        exact hxh.2
      have ihr := ih
      rw [hs] at ihr
      rw [ihr hvr]
      simp

/-- A valid byte run scans to scalar tokens only, and conversely. -/
theorem validUtf8_append {x y : List Nat} (hx : validUtf8 x = true) :
    validUtf8 (x ++ y) = validUtf8 y := by
  rw [validUtf8, scan_append hx, List.all_append]
  rw [validUtf8] at hx
  rw [hx, Bool.true_and, validUtf8]

/-- Chunks cover their tokens' bytes: valid and invalid parts concatenate
to the accumulated valid bytes followed by all trace bytes. -/
theorem chunksFrom_bytes (t : List Tok) (vacc : List Nat) :
    (chunksFrom vacc t).flatMap (fun vi => vi.1 ++ vi.2) =
      vacc ++ t.flatMap Tok.bytes := by
  induction t generalizing vacc with
  | nil =>
    by_cases hv : vacc.isEmpty
    · simp [chunksFrom, hv]
      simp at hv
      exact hv
    · simp [chunksFrom, hv]
  | cons tok t ih =>
    cases tok with
    | scalar c bs =>
      rw [chunksFrom, ih]
      simp [Tok.bytes]
    | bad bs e =>
      rw [chunksFrom]
      simp only [List.flatMap_cons, ih]
      simp [Tok.bytes]

/-- The chunk partition covers the byte run exactly. -/
theorem utf8Chunks_bytes (l : List Nat) :
    (utf8Chunks l).flatMap (fun vi => vi.1 ++ vi.2) = l := by
  rw [utf8Chunks, chunksFrom_bytes, scan_bytes]
  simp

/-- Valid parts of chunks built from self-scanning scalar tokens are valid
UTF-8. -/
theorem chunksFrom_valid (t : List Tok) (vacc : List Nat)
    (hacc : validUtf8 vacc = true)
    (hg : ∀ c bs, Tok.scalar c bs ∈ t → scan bs = [Tok.scalar c bs]) :
    ∀ vi ∈ chunksFrom vacc t, validUtf8 vi.1 = true := by
  induction t generalizing vacc with
  | nil =>
    intro vi hvi
    rw [chunksFrom] at hvi
    split at hvi
    · simp at hvi
    · simp at hvi
      rw [hvi]
      exact hacc
  | cons tok t ih =>
    intro vi hvi
    cases tok with
    | scalar c bs =>
      rw [chunksFrom] at hvi
      have hbs : scan bs = [Tok.scalar c bs] := hg c bs (List.mem_cons_self _ _)
      have hacc2 : validUtf8 (vacc ++ bs) = true := by
        rw [validUtf8, scan_append hacc, List.all_append, hbs]
        rw [validUtf8] at hacc
        simp [hacc, Tok.isScalar]
      exact ih (vacc ++ bs) hacc2
        (fun c' bs' h' => hg c' bs' (List.mem_cons_of_mem _ h')) vi hvi
    | bad bs e =>
      rw [chunksFrom] at hvi
      rcases List.mem_cons.mp hvi with h1 | h1
      · rw [h1]
        exact hacc
      · exact ih [] (by rw [validUtf8]; simp) 
          (fun c' bs' h' => hg c' bs' (List.mem_cons_of_mem _ h')) vi h1

/-- The valid part of every chunk of a byte run is valid UTF-8. -/
theorem utf8Chunks_valid {l : List Nat} {vi : List Nat × List Nat}
    (h : vi ∈ utf8Chunks l) : validUtf8 vi.1 = true := by
  refine chunksFrom_valid (scan l) [] (by rw [validUtf8]; simp) ?_ vi h
  exact fun c bs hm => (scan_goodTok hm).1

/-- Decoding then re-encoding a valid byte run is the identity. -/
theorem utf8Encode_decode {v : List Nat} (hv : validUtf8 v = true) :
    utf8Encode (utf8Decode v) = v := by
  rw [utf8Decode, utf8Encode]
  have hb := scan_bytes v
  rw [validUtf8] at hv
  have hg : ∀ c bs, Tok.scalar c bs ∈ scan v → utf8EncodeChar c = bs :=
    fun c bs h => (scan_goodTok h).2
  conv_rhs => rw [← hb]
  generalize scan v = ts at hv hg ⊢
  induction ts with
  | nil => simp
  | cons tok ts ih =>
    simp only [List.all_cons, Bool.and_eq_true] at hv
    cases tok with
    | bad bs e => simp [Tok.isScalar] at hv
    | scalar c bs =>
      simp only [List.filterMap_cons, List.flatMap_cons]
      rw [hg c bs (List.mem_cons_self _ _)]
      rw [ih hv.2 (fun c' bs' h' => hg c' bs' (List.mem_cons_of_mem _ h'))]
      simp [Tok.bytes]

/-- An all-scalar trace groups into a single all-valid chunk (or none when
there are no bytes at all). -/
theorem chunksFrom_allScalar (t : List Tok) (vacc : List Nat)
    (h : t.all Tok.isScalar = true) :
    chunksFrom vacc t =
      if (vacc ++ t.flatMap Tok.bytes).isEmpty then []
      else [(vacc ++ t.flatMap Tok.bytes, [])] := by
  induction t generalizing vacc with
  | nil => simp [chunksFrom]
  | cons tok t ih =>
    simp only [List.all_cons, Bool.and_eq_true] at h
    cases tok with
    | bad bs e => simp [Tok.isScalar] at h
    | scalar c bs =>
      rw [chunksFrom, ih _ h.2]
      simp [Tok.bytes]

/-- The chunk partition of a valid byte run is the single chunk holding
the whole run with an empty invalid part (no chunk at all when the run is
empty). -/
theorem utf8Chunks_valid_eq {l : List Nat} (hl : validUtf8 l = true) :
    utf8Chunks l = if l.isEmpty then [] else [(l, [])] := by
  rw [utf8Chunks, chunksFrom_allScalar _ _ hl, scan_bytes]
  simp

/-- The unpadded Display output has exactly the visible length that the
padded path computes. -/
theorem displayNoPad_length (l : List Nat) :
    (displayNoPad l).length = visibleLen l := by
  rw [displayNoPad, visibleLen]
  induction utf8Chunks l with
  | nil => simp
  | cons vi cs ih =>
    rw [List.flatMap_cons, List.map_cons, List.length_append, ih, List.sum_cons]
    by_cases h : vi.2.isEmpty <;> simp [h]

/-- Writing a concatenation is writing the parts in sequence, failures
propagating. -/
theorem writeStr_append {σ : Type} (wf : WriteFn σ) (s : σ) (x y : List Nat) :
    writeStr wf s (x ++ y) =
      match writeStr wf s x with
      | none => none
      | some s1 => writeStr wf s1 y := by
  induction x generalizing s with
  | nil => simp [writeStr]
  | cons c cs ih =>
    rw [List.cons_append, writeStr, writeStr]
    cases wf s c with
    | none => rfl
    | some s1 => exact ih s1

/-- The `RawStr` unpadded rendering loop writes exactly the unpadded
Display output, propagating every writer failure. -/
theorem rawFmtNoPadGo_eq {σ : Type} (wf : WriteFn σ)
    (cs : List (List Nat × List Nat)) (s : σ) :
    rawFmtNoPadGo wf cs s =
      writeStr wf s (cs.flatMap fun vi =>
        utf8Decode vi.1 ++ if vi.2.isEmpty then [] else [replacementChar]) := by
  induction cs generalizing s with
  | nil => simp [rawFmtNoPadGo, writeStr]
  | cons vi cs ih =>
    rw [rawFmtNoPadGo, List.flatMap_cons, List.append_assoc, writeStr_append]
    cases writeStr wf s (utf8Decode vi.1) with
    | none => rfl
    | some s1 =>
      by_cases h : vi.2.isEmpty
      · simp only [h, if_true, ite_true, List.nil_append]
        exact ih s1
      · simp only [h, Bool.false_eq_true, if_false, ite_false,
          List.singleton_append]
        rw [writeStr]
        cases wf s1 replacementChar with
        | none => rfl
        | some s2 => exact ih s2

/-- `rawFmtNoPad` is `writeStr` of the unpadded output. -/
theorem rawFmtNoPad_eq {σ : Type} (wf : WriteFn σ) (l : List Nat) (s : σ) :
    rawFmtNoPad wf l s = writeStr wf s (displayNoPad l) := by
  rw [rawFmtNoPad, rawFmtNoPadGo_eq, displayNoPad]

/-- The `RawStr` fill loop writes a replicated fill character, propagating
every writer failure. -/
theorem writeFillRaw_eq {σ : Type} (wf : WriteFn σ) (fill n : Nat) (s : σ) :
    writeFillRaw wf fill n s = writeStr wf s (List.replicate n fill) := by
  induction n generalizing s with
  | zero => simp [writeFillRaw, writeStr]
  | succ n ih =>
    rw [writeFillRaw, List.replicate_succ, writeStr]
    cases wf s fill with
    | none => rfl
    | some s1 => exact ih s1

/-- The whole `RawStr` Display implementation is `writeStr` of its rendered
output: it writes exactly the rendered scalars and propagates writer
failures unchanged, with no other failure mode. -/
theorem rawStrDisplayFmtW_eq {σ : Type} (wf : WriteFn σ) (prm : FmtParams)
    (l : List Nat) (s : σ) :
    rawStrDisplayFmtW wf prm l s = writeStr wf s (rawStrDisplayRendered prm l) := by
  rw [rawStrDisplayFmtW, rawStrDisplayRendered]
  rcases prm with ⟨al, w, fill⟩
  cases al with
  | none =>
    simp only [padCounts]
    rw [rawFmtNoPad_eq]
    simp
  | some a =>
    simp only
    rw [List.append_assoc, writeStr_append, writeFillRaw_eq]
    cases writeStr wf s (List.replicate (padCounts ⟨some a, w, fill⟩ l).1 fill) with
    | none => rfl
    | some s1 =>
      simp only
      rw [writeStr_append, rawFmtNoPad_eq]
      cases writeStr wf s1 (displayNoPad l) with
      | none => rfl
      | some s2 =>
        simp only
        rw [writeFillRaw_eq]

/-- C1: for every byte run `B`, alignment in {left, right, center},
requested minimum width `W` and fill character `F`, Display emits `Pl`
copies of `F`, then the unpadded rendering of `B`, then `Pr` copies of
`F`, where `L` is the per-chunk scalar count plus one per non-empty
invalid suffix (`visibleLen`), `P = max(0, W - L)` (saturating
subtraction), `(Pl, Pr)` is `(0, P)` for left, `(P, 0)` for right and
`(P/2, P/2 + P mod 2)` for center — the odd extra fill on the right —
and the total rendered length in visible characters is `max W L`. -/
theorem claim_C1 (B : List Nat) (a : Alignment) (w fc : Nat) :
    rawStrDisplayRendered ⟨some a, some w, fc⟩ B =
      List.replicate
        (match a with
          | .left => 0
          | .right => w - visibleLen B
          | .center => (w - visibleLen B) / 2) fc ++
      displayNoPad B ++
      List.replicate
        (match a with
          | .left => w - visibleLen B
          | .right => 0
          | .center => (w - visibleLen B) / 2 + (w - visibleLen B) % 2) fc ∧
    (∀ (σ : Type) (wf : WriteFn σ) (s : σ),
      rawStrDisplayFmtW wf ⟨some a, some w, fc⟩ B s =
        writeStr wf s (rawStrDisplayRendered ⟨some a, some w, fc⟩ B)) ∧
    (rawStrDisplayRendered ⟨some a, some w, fc⟩ B).length = max w (visibleLen B) := by
  refine ⟨?_, fun σ wf s => rawStrDisplayFmtW_eq wf _ B s, ?_⟩
  · cases a <;> simp [rawStrDisplayRendered, padCounts]
  · rw [rawStrDisplayRendered]
    simp only [List.length_append, List.length_replicate, displayNoPad_length]
    cases a <;> simp [padCounts] <;> omega

/-- C9: when the formatting request specifies no alignment, Display
ignores any requested width and fill character and emits exactly the
unpadded form (both as output and as writer interaction). -/
theorem claim_C9 (B : List Nat) (w : Option Nat) (fc : Nat) :
    rawStrDisplayRendered ⟨none, w, fc⟩ B = displayNoPad B ∧
    ∀ (σ : Type) (wf : WriteFn σ) (s : σ),
      rawStrDisplayFmtW wf ⟨none, w, fc⟩ B s = rawFmtNoPad wf B s := by
  constructor
  · simp [rawStrDisplayRendered, padCounts]
  · intro σ wf s
    rfl

/-- C6: on a byte run that is valid UTF-8, the unpadded Display rendering
is exactly the UTF-8 decoding of the run — Display is the identity on
valid UTF-8 text. -/
theorem claim_C6 (B : List Nat) (h : validUtf8 B = true) :
    displayNoPad B = utf8Decode B := by
  rw [displayNoPad, utf8Chunks_valid_eq h]
  by_cases hB : B.isEmpty
  · have hBe : B = [] := by simpa using hB
    simp [hBe, utf8Decode]
  · simp [hB]

/-- Witness for C6 at the valid byte run "aé" (`61 C3 A9`). -/
theorem claim_C6_witness :
    validUtf8 [0x61, 0xC3, 0xA9] = true ∧
    displayNoPad [0x61, 0xC3, 0xA9] = [0x61, 0xE9] := by
  have hv : validUtf8 [0x61, 0xC3, 0xA9] = true := by
    simp [validUtf8, scan_cons, step1, utf8CharWidth, contOk, Tok.isScalar]
  refine ⟨hv, ?_⟩
  rw [claim_C6 _ hv]
  simp [utf8Decode, scan_cons, step1, utf8CharWidth, contOk, dec2]

/-- Counterexample to C2 as stated: the byte run `EF BF BD` is the valid
UTF-8 encoding of U+FFFD itself, so the unpadded Display output contains
one U+FFFD character while the chunk partition has no chunk with a
non-empty invalid suffix. -/
theorem claim_C2_counterexample :
    displayNoPad [0xEF, 0xBF, 0xBD] = [0xFFFD] ∧
    utf8Chunks [0xEF, 0xBF, 0xBD] = [([0xEF, 0xBF, 0xBD], [])] ∧
    (displayNoPad [0xEF, 0xBF, 0xBD]).count 0xFFFD = 1 ∧
    ((utf8Chunks [0xEF, 0xBF, 0xBD]).countP fun vi => !vi.2.isEmpty) = 0 := by
  have hc : utf8Chunks [0xEF, 0xBF, 0xBD] = [([0xEF, 0xBF, 0xBD], [])] := by
    simp [utf8Chunks, chunksFrom, scan_cons, step1, utf8CharWidth, cont3First,
      contOk, dec3]
  have hd : displayNoPad [0xEF, 0xBF, 0xBD] = [0xFFFD] := by
    rw [displayNoPad, hc]
    simp [utf8Decode, scan_cons, step1, utf8CharWidth, cont3First, contOk, dec3]
  refine ⟨hd, hc, ?_, ?_⟩
  · rw [hd]
    simp
  · rw [hc]
    simp

/-- C2 as amended: per chunk, Display emits the valid prefix verbatim then
exactly one U+FFFD iff the invalid suffix is non-empty; consequently the
U+FFFD count of the output is the number of chunks with non-empty invalid
suffix plus the number of U+FFFD scalars already encoded in the valid
prefixes (the claim's bare count holds only when `B` itself encodes no
U+FFFD). -/
theorem claim_C2_amended (B : List Nat) :
    displayNoPad B = (utf8Chunks B).flatMap
      (fun vi => utf8Decode vi.1 ++ if vi.2.isEmpty then [] else [replacementChar]) ∧
    (displayNoPad B).count replacementChar =
      ((utf8Chunks B).countP fun vi => !vi.2.isEmpty) +
      ((utf8Chunks B).map fun vi => (utf8Decode vi.1).count replacementChar).sum := by
  refine ⟨rfl, ?_⟩
  rw [displayNoPad]
  induction utf8Chunks B with
  | nil => simp
  | cons vi cs ih =>
    rw [List.flatMap_cons, List.count_append, ih]
    by_cases h : vi.2.isEmpty <;>
      simp [h, List.countP_cons] <;> omega

/-- Byte-lexicographic comparison returns `eq` exactly on equal runs. -/
theorem bytesCmp_eq_iff (a b : List Nat) : bytesCmp a b = .eq ↔ a = b := by
  induction a generalizing b with
  | nil =>
    cases b <;> simp [bytesCmp]
  | cons x xs ih =>
    cases b with
    | nil => simp [bytesCmp]
    | cons y ys =>
      rw [bytesCmp]
      split_ifs with h1 h2
      · simp
        omega
      · simp
        omega
      · have hxy : x = y := by omega
        simp [hxy, ih]

/-- Byte-lexicographic comparison returns `lt` exactly on the strict
lexicographic order of the runs. -/
theorem bytesCmp_lt_iff (a b : List Nat) :
    bytesCmp a b = .lt ↔ List.Lex (· < ·) a b := by
  induction a generalizing b with
  | nil =>
    cases b with
    | nil => simp [bytesCmp]
    | cons y ys =>
      simp [bytesCmp]
      exact List.Lex.nil
  | cons x xs ih =>
    cases b with
    | nil => simp [bytesCmp]
    | cons y ys =>
      rw [bytesCmp]
      split_ifs with h1 h2
      · simp
        exact List.Lex.rel h1
      · simp
        intro h
        cases h with
        | cons h => omega
        | rel h => omega
      · have hxy : x = y := by omega
        subst hxy
        rw [ih]
        constructor
        · exact List.Lex.cons
        · intro h
          cases h with
          | cons h => exact h
          | rel h => omega

/-- Byte-lexicographic comparison returns `gt` exactly when the runs
compare `lt` the other way around. -/
theorem bytesCmp_gt_iff (a b : List Nat) :
    bytesCmp a b = .gt ↔ List.Lex (· < ·) b a := by
  have hflip : bytesCmp a b = .gt ↔ bytesCmp b a = .lt := by
    induction a generalizing b with
    | nil => cases b <;> simp [bytesCmp]
    | cons x xs ih =>
      cases b with
      | nil => simp [bytesCmp]
      | cons y ys =>
        rw [bytesCmp, bytesCmp]
        split_ifs <;> try simp
        all_goals try omega
        all_goals try rw [ih]
  rw [hflip, bytesCmp_lt_iff]

/-- C7: equality on the view is byte equality against any
bytes-convertible operand, and both the heterogeneous partial order and
the total order between views are the byte-lexicographic ordering of the
underlying bytes. -/
theorem claim_C7 (r : RawStr) (other : List Nat) (r2 : RawStr) :
    (rawStrEq r other = true ↔ r.bytes = other) ∧
    rawStrCmpOpt r other = some (bytesCmp r.bytes other) ∧
    rawStrCmp r r2 = bytesCmp r.bytes r2.bytes ∧
    (bytesCmp r.bytes other = .eq ↔ r.bytes = other) ∧
    (bytesCmp r.bytes other = .lt ↔ List.Lex (· < ·) r.bytes other) ∧
    (bytesCmp r.bytes other = .gt ↔ List.Lex (· < ·) other r.bytes) := by
  refine ⟨?_, rfl, rfl, bytesCmp_eq_iff _ _, bytesCmp_lt_iff _ _,
    bytesCmp_gt_iff _ _⟩
  rw [rawStrEq]
  exact beq_iff_eq

/-- Witness for C7 at concrete byte runs. -/
theorem claim_C7_witness :
    rawStrEq ⟨[1, 2]⟩ [1, 2] = true ∧
    bytesCmp [1, 2] [1, 3] = .lt ∧ List.Lex (· < ·) [1, 2] [1, 3] := by
  have h := claim_C7 ⟨[1, 2]⟩ [1, 2] ⟨[1, 3]⟩
  have h2 := claim_C7 ⟨[1, 2]⟩ [1, 3] ⟨[1, 3]⟩
  refine ⟨h.1.mpr rfl, by simp [bytesCmp], ?_⟩
  exact (h2.2.2.2.2.1).mp (by simp [bytesCmp])

/-- Every byte of an invalid run in a scan trace is at least `0x80`. -/
theorem scan_bad_bytes {l : List Nat} {bs : List Nat} {e : Bool}
    (h : Tok.bad bs e ∈ scan l) : ∀ b ∈ bs, 0x80 ≤ b := by
  induction l using scan.induct with
  | case1 => simp at h
  | case2 b rest ih =>
    rw [scan_cons] at h
    rcases List.mem_cons.mp h with h1 | h1
    · rcases hs : step1 b rest with ⟨tok, r⟩
      rw [hs] at h1
      subst h1
      obtain ⟨⟨tl, hbs, -, htl⟩, hb⟩ := step1_bad_spec hs
      intro x hx
      rw [hbs] at hx
      rcases List.mem_cons.mp hx with h2 | h2
      · omega
      · exact (htl x h2).1
    · exact ih h1

/-- The invalid part of a chunk is either empty (final chunk) or exactly
the bytes of an invalid run of the trace. -/
theorem chunksFrom_invalid (t : List Tok) (vacc : List Nat) :
    ∀ vi ∈ chunksFrom vacc t, vi.2 = [] ∨ ∃ e, Tok.bad vi.2 e ∈ t := by
  induction t generalizing vacc with
  | nil =>
    intro vi hvi
    rw [chunksFrom] at hvi
    split at hvi
    · simp at hvi
    · simp at hvi
      left
      rw [hvi]
  | cons tok t ih =>
    intro vi hvi
    cases tok with
    | scalar c bs =>
      rw [chunksFrom] at hvi
      rcases ih (vacc ++ bs) vi hvi with h1 | ⟨e, h1⟩
      · exact Or.inl h1
      · exact Or.inr ⟨e, List.mem_cons_of_mem _ h1⟩
    | bad bs e =>
      rw [chunksFrom] at hvi
      rcases List.mem_cons.mp hvi with h1 | h1
      · right
        refine ⟨e, ?_⟩
        rw [h1]
        exact List.mem_cons_self _ _
      · rcases ih [] vi h1 with h2 | ⟨e2, h2⟩
        · exact Or.inl h2
        · exact Or.inr ⟨e2, List.mem_cons_of_mem _ h2⟩

/-- Bytes of the invalid part of any chunk are at least `0x80`. -/
theorem utf8Chunks_invalid_bytes {l : List Nat} {vi : List Nat × List Nat}
    (h : vi ∈ utf8Chunks l) : ∀ b ∈ vi.2, 0x80 ≤ b := by
  rcases chunksFrom_invalid (scan l) [] vi h with h1 | ⟨e, h1⟩
  · rw [h1]
    simp
  · exact scan_bad_bytes h1

/-- `escape_ascii` of any byte at or above `0x80` is the four-character
lower-case `\xNN` escape. -/
theorem escapeAsciiByte_high {b : Nat} (h : 0x80 ≤ b) :
    escapeAsciiByte b = [0x5C, 0x78, hexDigit (b / 16), hexDigit (b % 16)] := by
  unfold escapeAsciiByte
  simp only [beq_iff_eq, Bool.and_eq_true, decide_eq_true_eq]
  split_ifs <;> first | rfl | omega

/-- `debugScalar` restated with propositional conditions, exactly as the
claim words the per-scalar classification. -/
theorem debugScalar_eq (printable : Nat → Bool) (c : Nat) :
    debugScalar printable c =
      if c = 0 then [0x5C, 0x30]
      else if 1 ≤ c ∧ c ≤ 0x7F then escapeAsciiByte c
      else escDebug printable c := by
  unfold debugScalar
  simp only [beq_iff_eq, Bool.and_eq_true, decide_eq_true_eq]

/-- C4: the Debug rendering is a literal `"`, then per chunk, for each
decoded scalar `\0` for U+0000, the ASCII-escape for U+0001..=U+007F and
the debug-escape otherwise, then the ASCII-escape of every invalid byte —
which, the invalid bytes all lying outside printable ASCII (≥ 0x80), is
always the two-digit lower-case `\xNN` form — then a closing `"`; for
every choice of the external printability classification. -/
theorem claim_C4 (printable : Nat → Bool) (B : List Nat) :
    rawStrDebugOut printable B =
      0x22 :: ((utf8Chunks B).flatMap fun vi =>
        ((utf8Decode vi.1).flatMap fun c =>
          if c = 0 then [0x5C, 0x30]
          else if 1 ≤ c ∧ c ≤ 0x7F then escapeAsciiByte c
          else escDebug printable c) ++
        vi.2.flatMap escapeAsciiByte) ++ [0x22] ∧
    ∀ vi ∈ utf8Chunks B, ∀ b ∈ vi.2, 0x80 ≤ b ∧
      escapeAsciiByte b = [0x5C, 0x78, hexDigit (b / 16), hexDigit (b % 16)] := by
  constructor
  · rw [rawStrDebugOut]
    congr 2
    refine List.flatMap_congr ?_  
    intro vi hvi
    rw [debugChunk]
    congr 1
    refine List.flatMap_congr ?_
    intro c hc
    exact debugScalar_eq printable c
  · intro vi hvi b hb
    have hge := utf8Chunks_invalid_bytes hvi b hb
    exact ⟨hge, escapeAsciiByte_high hge⟩

/-- The reparse of the empty body is the empty byte run. -/
theorem unescape_nil : unescape [] = some [] := by
  rw [unescape]

/-- Unfolding the reparser at a backslash: read one escape item, then
continue. -/
theorem unescape_esc (t : List Nat) :
    unescape (0x5C :: t) =
      match escStep t with
      | some (bs, r) =>
        match unescape r with
        | some tail => some (bs ++ tail)
        | none => none
      | none => none := by
  rw [unescape]
  cases hesc : escStep t <;> simp [hesc]

/-- Unfolding the reparser at a verbatim scalar: re-encode it as UTF-8 and
continue. -/
theorem unescape_verbatim {c : Nat} (hc : c ≠ 0x5C) (t : List Nat) :
    unescape (c :: t) =
      match unescape t with
      | some bs => some (utf8EncodeChar c ++ bs)
      | none => none := by
  rw [unescape.eq_def]
  split
  next heq => simp at heq
  next heq =>
    exfalso
    injection heq with h1 h2
    exact hc h1
  next c2 t2 hne heq =>
    injection heq with h1 h2
    subst h1
    subst h2
    rfl

/-- A hex digit character produced by `hexDigit` parses back to its
value. -/
theorem hexVal_hexDigit {d : Nat} (hd : d < 16) :
    hexVal (hexDigit d) = some d := by
  unfold hexVal hexDigit
  split_ifs <;> (try simp) <;> omega

/-- `hexDigit` of a digit value never produces the closing brace. -/
theorem hexDigit_ne_brace {d : Nat} (hd : d < 16) :
    (hexDigit d == 0x7D) = false := by
  unfold hexDigit
  split_ifs <;> simp <;> omega

/-- One step of `parseHexUntil` on a cons cell. -/
theorem parseHexUntil_cons (c : Nat) (r : List Nat) (acc : Nat) :
    parseHexUntil (c :: r) acc =
      if c == 0x7D then some (acc, r)
      else
        match hexVal c with
        | some d => parseHexUntil r (acc * 16 + d)
        | none => none := rfl

/-- Reading the hex digits written by `toHex` accumulates exactly the
written value, whatever follows them. -/
theorem parseHexUntil_toHex (q : Nat) :
    ∀ (acc : Nat) (rest : List Nat),
      parseHexUntil (toHex q ++ rest) acc =
        parseHexUntil rest (acc * 16 ^ (toHex q).length + q) := by
  induction q using Nat.strong_induction_on with
  | _ q ih =>
    intro acc rest
    by_cases hq : q < 16
    · rw [toHex, dif_pos hq]
      simp only [List.singleton_append, List.length_cons, List.length_nil]
      rw [parseHexUntil_cons]
      simp only [hexDigit_ne_brace hq, Bool.false_eq_true, if_false, ite_false,
        hexVal_hexDigit hq]
      rw [pow_succ, pow_zero]
      ring_nf
    · rw [toHex, dif_neg hq]
      rw [List.append_assoc, List.singleton_append]
      have hlt : q / 16 < q := Nat.div_lt_self (by omega) (by norm_num)
      have hm : q % 16 < 16 := Nat.mod_lt q (by norm_num)
      rw [ih (q / 16) hlt acc (hexDigit (q % 16) :: rest)]
      rw [parseHexUntil_cons]
      simp only [hexDigit_ne_brace hm, Bool.false_eq_true, if_false, ite_false,
        hexVal_hexDigit hm]
      congr 1
      simp only [List.length_append, List.length_cons, List.length_nil]
      have h2 : (acc * 16 ^ (toHex (q / 16)).length + q / 16) * 16 + q % 16 =
          acc * 16 ^ (toHex (q / 16)).length * 16 + (q / 16 * 16 + q % 16) := by
        ring
      have h3 : q / 16 * 16 + q % 16 = q := by omega
      rw [h2, h3]
      ring

/-- Reparsing an ASCII-escaped byte yields that byte back, before
whatever follows. -/
theorem unescape_escapeAscii {b : Nat} (hb : b < 256) (t : List Nat) :
    unescape (escapeAsciiByte b ++ t) =
      match unescape t with
      | some bs => some (b :: bs)
      | none => none := by
  unfold escapeAsciiByte
  simp only [beq_iff_eq, Bool.and_eq_true, decide_eq_true_eq]
  split_ifs with h1 h2 h3 h4 h5 h6 h7
  · subst h1
    rw [List.cons_append, List.cons_append, List.nil_append, unescape_esc]
    simp [escStep]
  · subst h2
    rw [List.cons_append, List.cons_append, List.nil_append, unescape_esc]
    simp [escStep]
  · subst h3
    rw [List.cons_append, List.cons_append, List.nil_append, unescape_esc]
    simp [escStep]
  · subst h4
    rw [List.cons_append, List.cons_append, List.nil_append, unescape_esc]
    simp [escStep]
  · subst h5
    rw [List.cons_append, List.cons_append, List.nil_append, unescape_esc]
    simp [escStep]
  · subst h6
    rw [List.cons_append, List.cons_append, List.nil_append, unescape_esc]
    simp [escStep]
  · rw [List.singleton_append, unescape_verbatim (by omega) t]
    have he : utf8EncodeChar b = [b] := by
      rw [utf8EncodeChar, if_pos (by omega)]
    rw [he]
    cases unescape t <;> simp
  · rw [List.cons_append, List.cons_append, List.cons_append, List.cons_append,
      List.nil_append, unescape_esc]
    have hd1 : hexVal (hexDigit (b / 16)) = some (b / 16) :=
      hexVal_hexDigit (by omega)
    have hd2 : hexVal (hexDigit (b % 16)) = some (b % 16) :=
      hexVal_hexDigit (by omega)
    simp only [escStep, beq_iff_eq, hd1, hd2]
    have hb16 : b / 16 * 16 + b % 16 = b := by omega
    split_ifs <;> simp_all

/-- Reparsing the debug form of one scalar yields that scalar's UTF-8
encoding back, before whatever follows, for every printability
classification. -/
theorem unescape_debugScalar (p : Nat → Bool) (c : Nat) (t : List Nat) :
    unescape (debugScalar p c ++ t) =
      match unescape t with
      | some bs => some (utf8EncodeChar c ++ bs)
      | none => none := by
  rw [debugScalar_eq]
  split_ifs with h1 h2
  · subst h1
    rw [List.cons_append, List.cons_append, List.nil_append, unescape_esc]
    have he : utf8EncodeChar 0 = [0] := by
      rw [utf8EncodeChar, if_pos (by omega)]
    rw [he]
    simp [escStep]
  · rw [unescape_escapeAscii (by omega) t]
    have he : utf8EncodeChar c = [c] := by
      rw [utf8EncodeChar, if_pos (by omega)]
    rw [he]
    cases unescape t <;> simp
  · rw [escDebug]
    split_ifs with hp
    · rw [List.singleton_append, unescape_verbatim (by omega) t]
    · rw [List.append_assoc, List.append_assoc, List.cons_append,
        List.cons_append, List.cons_append, List.nil_append, unescape_esc]
      have hu : escStep (0x75 :: 0x7B :: (toHex c ++ ([0x7D] ++ t))) =
          some (utf8EncodeChar c, t) := by
        rw [escStep.eq_def]
        simp only [beq_iff_eq]
        norm_num
        rw [parseHexUntil_toHex, parseHexUntil_cons]
        simp
      rw [hu]

/-- Reparsing the debug forms of a scalar sequence yields its UTF-8
encoding back, before whatever follows. -/
theorem unescape_scalars (p : Nat → Bool) (cs : List Nat) (t : List Nat) :
    unescape (cs.flatMap (debugScalar p) ++ t) =
      match unescape t with
      | some bs => some (utf8Encode cs ++ bs)
      | none => none := by
  induction cs with
  | nil =>
    rw [List.flatMap_nil, List.nil_append, utf8Encode]
    cases unescape t <;> simp
  | cons c cs ih =>
    rw [List.flatMap_cons, List.append_assoc, unescape_debugScalar, ih]
    cases unescape t <;> simp [utf8Encode]

/-- Reparsing the ASCII escapes of a byte sequence yields it back, before
whatever follows. -/
theorem unescape_invBytes (inv : List Nat) (hb : ∀ b ∈ inv, b < 256)
    (t : List Nat) :
    unescape (inv.flatMap escapeAsciiByte ++ t) =
      match unescape t with
      | some bs => some (inv ++ bs)
      | none => none := by
  induction inv with
  | nil =>
    rw [List.flatMap_nil, List.nil_append]
    cases unescape t <;> simp
  | cons b inv ih =>
    rw [List.flatMap_cons, List.append_assoc,
      unescape_escapeAscii (hb b (List.mem_cons_self _ _)),
      ih (fun x hx => hb x (List.mem_cons_of_mem _ hx))]
    cases unescape t <;> simp

/-- Reparsing the debug form of one chunk yields its bytes back, before
whatever follows. -/
theorem unescape_chunk (p : Nat → Bool) {v inv : List Nat}
    (hv : validUtf8 v = true) (hb : ∀ b ∈ inv, b < 256) (t : List Nat) :
    unescape (debugChunk p (v, inv) ++ t) =
      match unescape t with
      | some bs => some ((v ++ inv) ++ bs)
      | none => none := by
  rw [debugChunk]
  simp only
  rw [List.append_assoc, unescape_scalars, unescape_invBytes inv hb,
    utf8Encode_decode hv]
  cases unescape t <;> simp

/-- Reparsing the debug forms of a chunk list yields all its bytes back,
before whatever follows. -/
theorem unescape_chunks (p : Nat → Bool) (cs : List (List Nat × List Nat))
    (hfacts : ∀ vi ∈ cs, validUtf8 vi.1 = true ∧ ∀ b ∈ vi.2, b < 256)
    (t : List Nat) :
    unescape (cs.flatMap (debugChunk p) ++ t) =
      match unescape t with
      | some bs => some (cs.flatMap (fun vi => vi.1 ++ vi.2) ++ bs)
      | none => none := by
  induction cs with
  | nil =>
    rw [List.flatMap_nil, List.nil_append]
    cases unescape t <;> simp
  | cons vi cs ih =>
    obtain ⟨hv, hb⟩ := hfacts vi (List.mem_cons_self _ _)
    rw [List.flatMap_cons, List.append_assoc]
    have hvi2 : debugChunk p vi = debugChunk p (vi.1, vi.2) := by
      rw [show (vi.1, vi.2) = vi from rfl]
    rw [hvi2, unescape_chunk p hv hb,
      ih (fun vi' h' => hfacts vi' (List.mem_cons_of_mem _ h'))]
    cases unescape t <;> simp

/-- C5: the Debug output, stripped of its surrounding double quotes and
reparsed under the documented escape grammar, reconstructs the byte run
byte for byte, for every printability classification — Debug rendering
loses no information. -/
theorem claim_C5 (p : Nat → Bool) (B : List Nat) (h : ∀ b ∈ B, b < 256) :
    unescape (((rawStrDebugOut p B).drop 1).dropLast) = some B := by
  have hbody : ((rawStrDebugOut p B).drop 1).dropLast =
      (utf8Chunks B).flatMap (debugChunk p) := by
    rw [rawStrDebugOut]
    simp
  rw [hbody]
  have hfacts : ∀ vi ∈ utf8Chunks B,
      validUtf8 vi.1 = true ∧ ∀ b ∈ vi.2, b < 256 := by
    intro vi hvi
    refine ⟨utf8Chunks_valid hvi, fun b hb => ?_⟩
    refine h b ?_
    rw [← utf8Chunks_bytes B]
    exact List.mem_flatMap.mpr ⟨vi, hvi, List.mem_append_right _ hb⟩
  have hmain := unescape_chunks p (utf8Chunks B) hfacts []
  rw [List.append_nil, unescape_nil] at hmain
  rw [hmain]
  simp [utf8Chunks_bytes]

/-- Witness for C5 at the byte run `61 FF 62` with the all-printable
classification. -/
theorem claim_C5_witness :
    unescape (((rawStrDebugOut (fun _ => true) [0x61, 0xFF, 0x62]).drop
      1).dropLast) = some [0x61, 0xFF, 0x62] :=
  claim_C5 (fun _ => true) [0x61, 0xFF, 0x62] (by decide)

/-- A failing step stays failing on every truncation of its lookahead:
once the automaton rejects at a position, no prefix of the input accepted
up to that position can make it accept. -/
theorem step1_take_bad {b : Nat} {rest : List Nat} {bs : List Nat}
    {e : Bool} {r : List Nat} (h : step1 b rest = (.bad bs e, r)) :
    ∀ k c2 bs2 r2, step1 b (List.take k rest) ≠ (.scalar c2 bs2, r2) := by
  intro k c2 bs2 r2 hscalar
  obtain ⟨tl, -, htk, hloc⟩ := step1_scalar_local hscalar
  have hrest : rest = tl ++ (r2 ++ List.drop k rest) := by
    rw [← List.append_assoc, ← htk, List.take_append_drop]
  rw [hrest, hloc (r2 ++ List.drop k rest)] at h
  simp at h

/-- `str::from_utf8` over an all-scalar trace decodes every scalar. -/
theorem fromUtf8Go_allScalar (t : List Tok) (h : t.all Tok.isScalar = true) :
    ∀ p, fromUtf8Go t p = .ok (t.filterMap fun tok =>
      match tok with
      | .scalar c _ => some c
      | .bad _ _ => none) := by
  induction t with
  | nil => intro p; rfl
  | cons tok t ih =>
    intro p
    simp only [List.all_cons, Bool.and_eq_true] at h
    cases tok with
    | bad bs e => simp [Tok.isScalar] at h
    | scalar c bs =>
      rw [fromUtf8Go, ih h.2]
      simp

/-- `str::from_utf8` over a trace with an invalid run reports an error. -/
theorem fromUtf8Go_error_exists (t : List Tok)
    (h : t.all Tok.isScalar = false) :
    ∀ p, ∃ e, fromUtf8Go t p = .error e := by
  induction t with
  | nil => simp at h
  | cons tok t ih =>
    intro p
    cases tok with
    | bad bs eof => exact ⟨⟨p, if eof then none else some bs.length⟩, rfl⟩
    | scalar c bs =>
      simp only [List.all_cons, Tok.isScalar, Bool.true_and] at h
      obtain ⟨e, he⟩ := ih h (p + bs.length)
      refine ⟨e, ?_⟩
      rw [fromUtf8Go, he]

/-- The error position reported by `str::from_utf8` is exact: the bytes
before it are valid, and every longer prefix of the input is invalid. -/
theorem fromUtf8Go_error_spec :
    ∀ (B : List Nat) (p : Nat) (e : Utf8Error),
      fromUtf8Go (scan B) p = .error e →
      p ≤ e.validUpTo ∧
      validUtf8 (List.take (e.validUpTo - p) B) = true ∧
      ∀ m, e.validUpTo - p < m → validUtf8 (List.take m B) = false := by
  intro B
  induction B using scan.induct with
  | case1 =>
    intro p e he
    rw [scan_nil] at he
    simp [fromUtf8Go] at he
  | case2 b rest ih =>
    intro p e he
    rw [scan_cons] at he
    rcases hs : step1 b rest with ⟨tok, r⟩
    rw [hs] at he
    simp only [hs] at ih
    cases tok with
    | bad bs eof =>
      rw [fromUtf8Go] at he
      have hp : e.validUpTo = p := by
        cases he
        rfl
      refine ⟨by omega, by simp [hp, validUtf8], ?_⟩
      intro m hm
      rw [hp, Nat.sub_self] at hm
      cases m with
      | zero => omega
      | succ m2 =>
        rw [List.take_succ_cons]
        rw [validUtf8, scan_cons]
        rcases hs2 : step1 b (List.take m2 rest) with ⟨tok2, r2⟩
        cases tok2 with
        | scalar c2 bs2 => exact absurd hs2 (step1_take_bad hs m2 c2 bs2 r2)
        | bad bs2 e2 => simp [hs2, Tok.isScalar]
    | scalar c bs =>
      rw [fromUtf8Go] at he
      rcases hrec : fromUtf8Go (scan r) (p + bs.length) with e2 | s
      · rw [hrec] at he
        have hE : e = e2 := by
          injection he with h
          exact h.symm
        rw [hE]
        obtain ⟨hple, hvalid, hbad⟩ := ih (p + bs.length) e2 hrec
        have hbytes : b :: rest = bs ++ r := by
          have hby := step1_bytes b rest
          rw [hs] at hby
          simpa [Tok.bytes] using hby.symm
        have hmem : Tok.scalar c bs ∈ scan (b :: rest) := by
          rw [scan_cons, hs]
          exact List.mem_cons_self _ _
        have hvbs : validUtf8 bs = true := by
          rw [validUtf8, (scan_goodTok hmem).1]
          simp [Tok.isScalar]
        have hlbs : 0 < bs.length := by
          obtain ⟨tl, hbs, -, -⟩ := step1_scalar_local hs
          rw [hbs]
          simp
        refine ⟨by omega, ?_, ?_⟩
        · rw [hbytes, List.take_append_eq_append_take,
            List.take_of_length_le (by omega), validUtf8_append hvbs]
          have harith : e2.validUpTo - p - bs.length =
              e2.validUpTo - (p + bs.length) := by omega
          rw [harith]
          exact hvalid
        · intro m hm
          rw [hbytes, List.take_append_eq_append_take,
            List.take_of_length_le (by omega), validUtf8_append hvbs]
          exact hbad (m - bs.length) (by omega)
      · rw [hrec] at he
        simp at he

/-- C8: the try-decode operations — `RawStr::to_utf8` on the borrowed view
and `String::from_utf8` behind `TryFrom<BString> for String` — return the
decoded text exactly when the bytes are valid UTF-8, and otherwise fail
with a UTF-8 error whose `valid_up_to` pins the first invalid byte: the
prefix of that length is valid and every longer prefix is invalid. -/
theorem claim_C8 (B : List Nat) :
    (validUtf8 B = true → fromUtf8 B = .ok (utf8Decode B)) ∧
    (validUtf8 B = false → ∃ e, fromUtf8 B = .error e) ∧
    (∀ s, fromUtf8 B = .ok s → s = utf8Decode B ∧ validUtf8 B = true) ∧
    (∀ e, fromUtf8 B = .error e →
      validUtf8 (List.take e.validUpTo B) = true ∧
      ∀ m, e.validUpTo < m → validUtf8 (List.take m B) = false) ∧
    RawStr.toUtf8 ⟨B⟩ = fromUtf8 B ∧
    (validUtf8 B = true → stringFromUtf8 B = .ok (utf8Decode B)) ∧
    (∀ e, fromUtf8 B = .error e → stringFromUtf8 B = .error ⟨B, e⟩) ∧
    BString.tryIntoString ⟨B⟩ = stringFromUtf8 B := by
  have hok : validUtf8 B = true → fromUtf8 B = .ok (utf8Decode B) := by
    intro hv
    rw [fromUtf8, fromUtf8Go_allScalar (scan B) hv 0, utf8Decode]
  refine ⟨hok, ?_, ?_, ?_, rfl, ?_, ?_, rfl⟩
  · intro hv
    exact fromUtf8Go_error_exists (scan B) hv 0
  · intro s hs
    by_cases hv : validUtf8 B = true
    · rw [hok hv] at hs
      injection hs with hs2
      exact ⟨hs2.symm, hv⟩
    · have hvf : validUtf8 B = false := by
        cases hvb : validUtf8 B with
        | false => rfl
        | true => exact absurd hvb hv
      obtain ⟨e, he⟩ := fromUtf8Go_error_exists (scan B) hvf 0
      rw [fromUtf8, he] at hs
      exact absurd hs (by simp)
  · intro e he
    have hsp := fromUtf8Go_error_spec B 0 e he
    simpa using hsp
  · intro hv
    rw [stringFromUtf8, hok hv]
  · intro e he
    rw [stringFromUtf8, he]

/-- Witness for C8: a valid run decodes, an invalid run errors at the
right position. -/
theorem claim_C8_witness :
    fromUtf8 [0x61, 0x62] = .ok [0x61, 0x62] ∧
    validUtf8 (List.take 1 [0x61, 0xFF, 0x62]) = true ∧
    validUtf8 (List.take 2 [0x61, 0xFF, 0x62]) = false := by
  have hv : validUtf8 [0x61, 0x62] = true := by
    simp [validUtf8, scan_cons, step1, Tok.isScalar]
  have h1 := (claim_C8 [0x61, 0x62]).1 hv
  have hd : utf8Decode [0x61, 0x62] = [0x61, 0x62] := by
    simp [utf8Decode, scan_cons, step1]
  have he : fromUtf8 [0x61, 0xFF, 0x62] = .error ⟨1, some 1⟩ := by
    simp [fromUtf8, fromUtf8Go, scan_cons, step1, utf8CharWidth, contOk]
  have h2 := ((claim_C8 [0x61, 0xFF, 0x62]).2.2.2.1) ⟨1, some 1⟩ he
  refine ⟨by rw [h1, hd], by simpa using h2.1, ?_⟩
  have := h2.2 2 (by norm_num)
  simpa using this

/-- C3 failing input: with a writer that rejects every write, Display of
`BStr` over `FF` (no alignment) returns success even though the
replacement-character write failed — `bstr.rs` discards that `Result` —
and with left alignment and width 3 over an empty run it likewise returns
success while every fill write failed.  The `RawStr` implementation
propagates the same failures.  This refutes the claim that writer
failures are always propagated for both variants; the writer demonstrably
fails on the same rendering (`writeStr … = none`). -/
theorem claim_C3_bug :
    bStrDisplayFmtW (fun (_ : Unit) (_ : Nat) => none) ⟨none, none, 0x20⟩
      [0xFF] () = some () ∧
    writeStr (fun (_ : Unit) (_ : Nat) => none) () (displayNoPad [0xFF]) =
      none ∧
    rawStrDisplayFmtW (fun (_ : Unit) (_ : Nat) => none) ⟨none, none, 0x20⟩
      [0xFF] () = none ∧
    bStrDisplayFmtW (fun (_ : Unit) (_ : Nat) => none)
      ⟨some .left, some 3, 0x2A⟩ [] () = some () ∧
    rawStrDisplayFmtW (fun (_ : Unit) (_ : Nat) => none)
      ⟨some .left, some 3, 0x2A⟩ [] () = none := by
  have hc : utf8Chunks [0xFF] = [([], [0xFF])] := by
    simp [utf8Chunks, chunksFrom, scan_cons, step1, utf8CharWidth]
  have hce : utf8Chunks [] = [] := by
    simp [utf8Chunks, chunksFrom]
  refine ⟨?_, ?_, ?_, ?_, ?_⟩
  · rw [bStrDisplayFmtW]
    simp only
    rw [bFmtNoPad, hc]
    simp [bFmtNoPadGo, writeStr, utf8Decode]
  · rw [displayNoPad, hc]
    simp [writeStr, utf8Decode, replacementChar]
  · rw [rawStrDisplayFmtW]
    simp only
    rw [rawFmtNoPad, hc]
    simp [rawFmtNoPadGo, writeStr, utf8Decode]
  · rw [bStrDisplayFmtW]
    simp only
    rw [bFmtNoPad, hce]
    simp [bFmtNoPadGo, padCounts, visibleLen, hce, writeFillB]
  · rw [rawStrDisplayFmtW]
    simp only
    rw [padCounts]
    simp only [visibleLen, hce]
    simp [writeFillRaw, rawFmtNoPad, hce, rawFmtNoPadGo]

/-- C10: for every owned buffer and every formatting request and writer,
the Debug and Display renderings of the buffer are exactly those of the
borrowed view projected over the buffer's bytes — the owned type
delegates rendering to its view projection. -/
theorem claim_C10 (buf : BString) (printable : Nat → Bool)
    (prm : FmtParams) (σ : Type) (wf : WriteFn σ) (st : σ) :
    bStringDebugOut printable buf = bStrDebugOut printable buf.asBstr.bytes ∧
    bStringDisplayFmtW wf prm buf st =
      bStrDisplayFmtW wf prm buf.asBstr.bytes st :=
  ⟨rfl, rfl⟩

end RawString
